import Mathlib

/-!
Verification of the tiny-dnn activation-function core
(`tiny_dnn/activations/activation_function.h`).

Scalars (`float_t`) are modelled by an arbitrary linear ordered field,
instantiated with `ℝ` for the analytic claims (with `Real.exp` for
`std::exp`) and with `ℚ` for concrete decidable evaluations.  Vectors
(`vec_t`) are lists; out-of-range element access (undefined behaviour in
the C++) is totalised with `List.getD _ _ 0`.  Transcendental library
functions are passed to the variant constructors as explicit function
arguments so that every definition stays computable.
-/

namespace tiny_dnn
namespace activation

variable {α : Type} [LinearOrderedField α]

/-- The capability record of the C++ abstract class `function`:
value function `f`, scalar derivative `df`, Jacobian row `df_vec`
(the two-argument `df` overload), the `one_hot` flag and the
`scale` training range. -/
structure function (α : Type) where
  f : List α → ℕ → α
  df : α → α
  df_vec : List α → ℕ → List α
  one_hot : Bool
  scale : α × α

/-- The base-class implementation of `df(const vec_t& y, serial_size_t i)`:
`vec_t v(y.size(), 0); v[i] = df(y[i]); return v;` — a vector of length
`y.size()` that is zero except at `i`, where it holds `df(y[i])`. -/
def df_default (df : α → α) (y : List α) (i : ℕ) : List α :=
  (List.range y.length).map (fun k => if k = i then df (y.getD i 0) else 0)

/-- `class identity`. -/
def identity : function α where
  f := fun v i => v.getD i 0
  df := fun _ => 1
  df_vec := df_default (fun _ => 1)
  one_hot := true
  scale := (0.1, 0.9)

/-- `class sigmoid`; `exp` stands for `std::exp`. -/
def sigmoid (exp : α → α) : function α where
  f := fun v i => 1 / (1 + exp (-(v.getD i 0)))
  df := fun y => y * (1 - y)
  df_vec := df_default (fun y => y * (1 - y))
  one_hot := true
  scale := (0.1, 0.9)

/-- `class relu` (`rectified_linear`). -/
def relu : function α where
  f := fun v i => max 0 (v.getD i 0)
  df := fun y => if y > 0 then 1 else 0
  df_vec := df_default (fun y => if y > 0 then 1 else 0)
  one_hot := true
  scale := (0.1, 0.9)

/-- `typedef relu rectified_linear`. -/
def rectified_linear : function α := relu

/-- `class leaky_relu`. -/
def leaky_relu : function α where
  f := fun v i => if v.getD i 0 > 0 then v.getD i 0 else 0.01 * v.getD i 0
  df := fun y => if y > 0 then 1 else 0.01
  df_vec := df_default (fun y => if y > 0 then 1 else 0.01)
  one_hot := true
  scale := (0.1, 0.9)

/-- `class elu`; `exp` stands for `std::exp`. -/
def elu (exp : α → α) : function α where
  f := fun v i => if v.getD i 0 < 0 then exp (v.getD i 0) - 1 else v.getD i 0
  df := fun y => if y > 0 then 1 else 1 + y
  df_vec := df_default (fun y => if y > 0 then 1 else 1 + y)
  one_hot := true
  scale := (0.1, 0.9)

/-- `*std::max_element(v.begin(), v.end())` on a non-empty vector:
the maximum of the list (defaulting to `0` on the empty list, which the
C++ never dereferences in this file because softmax is called on
non-empty rows). -/
def max_element : List α → α
  | [] => 0
  | x :: xs => xs.foldl max x

/-- `softmax::f`: subtract the row maximum, exponentiate, normalise. -/
def softmax_f (exp : α → α) (v : List α) (i : ℕ) : α :=
  let alpha := max_element v
  let numer := exp (v.getD i 0 - alpha)
  let denom := (v.map (fun x => exp (x - alpha))).sum
  numer / denom

/-- `softmax::df(const vec_t&, serial_size_t)`: the dense Jacobian row,
`df(y[index])` on the diagonal and `-y[i]*y[index]` elsewhere. -/
def softmax_df_vec (y : List α) (index : ℕ) : List α :=
  (List.range y.length).map
    (fun i => if i = index then y.getD index 0 * (1 - y.getD index 0)
              else -(y.getD i 0) * y.getD index 0)

/-- `class softmax`; `exp` stands for `std::exp`. -/
def softmax (exp : α → α) : function α where
  f := softmax_f exp
  df := fun y => y * (1 - y)
  df_vec := softmax_df_vec
  one_hot := false
  scale := (0, 1)

/-- `sqr` from `tiny_dnn/util/util.h`. -/
def sqr (x : α) : α := x * x

/-- `class tan_h`; `tanh` stands for `std::tanh`. -/
def tan_h (tanh : α → α) : function α where
  f := fun v i => tanh (v.getD i 0)
  df := fun y => 1 - sqr y
  df_vec := df_default (fun y => 1 - sqr y)
  one_hot := true
  scale := (-0.8, 0.8)

/-- `class tan_hp1m2`; `exp` stands for `std::exp`. -/
def tan_hp1m2 (exp : α → α) : function α where
  f := fun v i => exp (v.getD i 0) / (exp (v.getD i 0) + exp (-(v.getD i 0)))
  df := fun y => 2 * y * (1 - y)
  df_vec := df_default (fun y => 2 * y * (1 - y))
  one_hot := true
  scale := (0.1, 0.9)

/-- `vectorize::dot(&a[0], &b[0], len)`: the dot product of the first
`len` entries of `a` and `b`. -/
def dot (a b : List α) (len : ℕ) : α :=
  ((List.range len).map (fun k => a.getD k 0 * b.getD k 0)).sum

/-- The per-sample body of `forward_activation`: overwrite
`y_vec[i] = h.f(a_vec, i)` for `i < out_dim`, leaving later entries of
`y_vec` as they were. -/
def forward_sample (h : function α) (a_vec y_vec : List α) (out_dim : ℕ) : List α :=
  (List.range y_vec.length).map
    (fun i => if i < out_dim then h.f a_vec i else y_vec.getD i 0)

/-- `forward_activation(y, a, h)`: early return on an empty
pre-activation batch, otherwise every sample slot of `y` is rewritten
from the matching sample of `a`, with `out_dim = a[0].size()`. -/
def forward_activation (y a : List (List α)) (h : function α) : List (List α) :=
  if a.isEmpty then y
  else
    (List.range y.length).map
      (fun sample => forward_sample h (a.getD sample []) (y.getD sample [])
        (a.headD []).length)

/-- The per-sample body of `backward_activation`, with
`len = prev_delta_vec.size()`: the elementwise chain rule in the
one-hot case, the dense Jacobian contraction otherwise. -/
def backward_sample (h : function α) (prev_delta_vec out_vec curr_delta_vec : List α) :
    List α :=
  let len := prev_delta_vec.length
  if h.one_hot then
    (List.range curr_delta_vec.length).map
      (fun c => if c < len then prev_delta_vec.getD c 0 * h.df (out_vec.getD c 0)
                else curr_delta_vec.getD c 0)
  else
    (List.range curr_delta_vec.length).map
      (fun c => if c < len then dot prev_delta_vec (h.df_vec out_vec c) len
                else curr_delta_vec.getD c 0)

/-- `backward_activation(prev_delta, this_out, curr_delta, h)`:
`for_i(this_out.size(), ...)` rewriting each sample of `curr_delta`. -/
def backward_activation (prev_delta this_out curr_delta : List (List α))
    (h : function α) : List (List α) :=
  (List.range curr_delta.length).map
    (fun sample =>
      if sample < this_out.length then
        backward_sample h (prev_delta.getD sample []) (this_out.getD sample [])
          (curr_delta.getD sample [])
      else curr_delta.getD sample [])

/-- `forward_activation` run with an explicit schedule: the `for_i`
work units executed one at a time in the order given by `order`
(a permutation of `0, …, y.size()-1`), each unit reading and rewriting
only its own sample slot. -/
def forward_activation_sched (order : List ℕ) (y a : List (List α)) (h : function α) :
    List (List α) :=
  if a.isEmpty then y
  else
    order.foldl
      (fun acc sample =>
        acc.set sample (forward_sample h (a.getD sample []) (acc.getD sample [])
          (a.headD []).length))
      y

/-- `backward_activation` run with an explicit schedule over the `for_i`
work units (a permutation of `0, …, this_out.size()-1`). -/
def backward_activation_sched (order : List ℕ) (prev_delta this_out curr_delta : List (List α))
    (h : function α) : List (List α) :=
  order.foldl
    (fun acc sample =>
      acc.set sample (backward_sample h (prev_delta.getD sample [])
        (this_out.getD sample []) (acc.getD sample [])))
    curr_delta

section ListLemmas

variable {β : Type}

lemma getD_set_self (l : List β) (s : ℕ) (v d : β) (h : s < l.length) :
    (l.set s v).getD s d = v := by
  rw [List.getD_eq_getElem _ _ (by simpa using h)]
  simp

lemma getD_set_ne (l : List β) (s t : ℕ) (v d : β) (h : s ≠ t) :
    (l.set s v).getD t d = l.getD t d := by
  simp [List.getD_eq_getElem?_getD, List.getElem?_set_ne h]

lemma getD_range_map (g : ℕ → β) (n t : ℕ) (d : β) (ht : t < n) :
    ((List.range n).map g).getD t d = g t := by
  rw [List.getD_eq_getElem _ _ (by simpa using ht)]
  simp

lemma getD_range_map_ge (g : ℕ → β) (n t : ℕ) (d : β) (ht : n ≤ t) :
    ((List.range n).map g).getD t d = d := by
  apply List.getD_eq_default
  simpa

lemma sum_range_map [AddCommMonoid β] (g : ℕ → β) (n : ℕ) :
    ((List.range n).map g).sum = ∑ k ∈ Finset.range n, g k := by
  induction n with
  | zero => simp
  | succ m ih =>
    rw [List.range_succ, List.map_append, List.sum_append, Finset.sum_range_succ, ih]
    simp

lemma foldl_set_length (F : ℕ → β → β) (d : β) :
    ∀ (order : List ℕ) (y : List β),
      (order.foldl (fun acc s => acc.set s (F s (acc.getD s d))) y).length = y.length := by
  intro order
  induction order with
  | nil => intro y; rfl
  | cons s rest ih =>
    intro y
    simp only [List.foldl_cons]
    rw [ih]
    exact List.length_set y s _

/-- A fold of single-slot updates over a duplicate-free schedule: each slot
`t` of the initial list that occurs in the schedule is rewritten from its
own original value exactly once; every other slot keeps its value. -/
lemma foldl_set_getD (F : ℕ → β → β) (d : β) :
    ∀ (order : List ℕ), order.Nodup → ∀ (y : List β) (t : ℕ), t < y.length →
      (order.foldl (fun acc s => acc.set s (F s (acc.getD s d))) y).getD t d
        = if t ∈ order then F t (y.getD t d) else y.getD t d := by
  intro order
  induction order with
  | nil => intro _ y t _; simp
  | cons s rest ih =>
    intro hnd y t ht
    obtain ⟨hs, hrest⟩ := List.nodup_cons.mp hnd
    simp only [List.foldl_cons]
    rw [ih hrest (y.set s (F s (y.getD s d))) t (by simpa using ht)]
    by_cases hmem : t ∈ rest
    · have hts : t ≠ s := fun h => hs (h ▸ hmem)
      rw [if_pos hmem, if_pos (List.mem_cons.mpr (Or.inr hmem)),
        getD_set_ne _ _ _ _ _ (Ne.symm hts)]
    · by_cases hts : t = s
      · subst hts
        rw [if_neg hmem, if_pos (List.mem_cons.mpr (Or.inl rfl)),
          getD_set_self _ _ _ _ ht]
      · rw [if_neg hmem, if_neg (by simp [hmem, hts]),
          getD_set_ne _ _ _ _ _ (Ne.symm hts)]

end ListLemmas

lemma forward_sample_length (h : function α) (av yv : List α) (n : ℕ) :
    (forward_sample h av yv n).length = yv.length := by
  simp [forward_sample]

lemma forward_sample_getD (h : function α) (av yv : List α) (n i : ℕ)
    (hi : i < yv.length) :
    (forward_sample h av yv n).getD i 0 = if i < n then h.f av i else yv.getD i 0 :=
  getD_range_map _ _ _ _ hi

lemma forward_activation_length (y a : List (List α)) (h : function α) :
    (forward_activation y a h).length = y.length := by
  unfold forward_activation
  split <;> simp

lemma forward_activation_getD (y a : List (List α)) (h : function α) (s : ℕ)
    (hne : a ≠ []) (hs : s < y.length) :
    (forward_activation y a h).getD s []
      = forward_sample h (a.getD s []) (y.getD s []) (a.headD []).length := by
  rw [forward_activation, if_neg (by simpa using hne)]
  exact getD_range_map _ _ _ _ hs

lemma backward_sample_length (h : function α) (pv ov cv : List α) :
    (backward_sample h pv ov cv).length = cv.length := by
  unfold backward_sample
  split <;> simp

lemma backward_sample_getD_one_hot (h : function α) (pv ov cv : List α) (c : ℕ)
    (hone : h.one_hot = true) (hc : c < cv.length) :
    (backward_sample h pv ov cv).getD c 0
      = if c < pv.length then pv.getD c 0 * h.df (ov.getD c 0) else cv.getD c 0 := by
  rw [backward_sample, if_pos hone]
  exact getD_range_map _ _ _ _ hc

lemma backward_sample_getD_dense (h : function α) (pv ov cv : List α) (c : ℕ)
    (hone : h.one_hot = false) (hc : c < cv.length) :
    (backward_sample h pv ov cv).getD c 0
      = if c < pv.length then dot pv (h.df_vec ov c) pv.length else cv.getD c 0 := by
  rw [backward_sample, if_neg (by simp [hone])]
  exact getD_range_map _ _ _ _ hc

lemma backward_activation_length (pd out cd : List (List α)) (h : function α) :
    (backward_activation pd out cd h).length = cd.length := by
  simp [backward_activation]

lemma backward_activation_getD (pd out cd : List (List α)) (h : function α) (s : ℕ)
    (hs : s < cd.length) :
    (backward_activation pd out cd h).getD s []
      = if s < out.length then
          backward_sample h (pd.getD s []) (out.getD s []) (cd.getD s [])
        else cd.getD s [] :=
  getD_range_map _ _ _ _ hs

lemma forward_activation_sched_eq (order : List ℕ) (y a : List (List α))
    (h : function α) (hperm : order.Perm (List.range y.length)) :
    forward_activation_sched order y a h = forward_activation y a h := by
  by_cases ha : a.isEmpty
  · rw [forward_activation_sched, if_pos ha, forward_activation, if_pos ha]
  · rw [forward_activation_sched, if_neg ha, forward_activation, if_neg ha]
    have hnd : order.Nodup := hperm.nodup_iff.mpr (List.nodup_range _)
    have hF := foldl_set_length
      (fun s v => forward_sample h (a.getD s []) v (a.headD []).length)
      ([] : List α) order
    apply List.ext_getElem
    · rw [hF]
      simp
    · intro t h1 h2
      have ht : t < y.length := by
        have := h1
        rwa [hF] at this
      rw [← List.getD_eq_getElem _ [] h1, ← List.getD_eq_getElem _ [] h2,
        foldl_set_getD
          (fun s v => forward_sample h (a.getD s []) v (a.headD []).length)
          ([] : List α) order hnd y t ht,
        if_pos (hperm.mem_iff.mpr (List.mem_range.mpr ht)),
        getD_range_map _ _ _ _ ht]

lemma backward_activation_sched_eq (order : List ℕ) (pd out cd : List (List α))
    (h : function α) (hperm : order.Perm (List.range out.length)) :
    backward_activation_sched order pd out cd h = backward_activation pd out cd h := by
  have hnd : order.Nodup := hperm.nodup_iff.mpr (List.nodup_range _)
  have hF := foldl_set_length
    (fun s v => backward_sample h (pd.getD s []) (out.getD s []) v)
    ([] : List α) order
  have hiff : ∀ t : ℕ, (t ∈ order) ↔ t < out.length := by
    intro t
    rw [hperm.mem_iff, List.mem_range]
  apply List.ext_getElem
  · rw [backward_activation_sched, hF, backward_activation_length]
  · intro t h1 h2
    have ht : t < cd.length := by
      have := h1
      rwa [backward_activation_sched, hF] at this
    rw [← List.getD_eq_getElem _ [] h1, ← List.getD_eq_getElem _ [] h2,
      backward_activation_getD _ _ _ _ _ ht, backward_activation_sched,
      foldl_set_getD
        (fun s v => backward_sample h (pd.getD s []) (out.getD s []) v)
        ([] : List α) order hnd cd t ht]
    simp only [hiff]

omit [LinearOrderedField α] in
lemma headD_eq_getD_zero (a : List (List α)) (hne : a ≠ []) :
    a.headD [] = a.getD 0 [] := by
  cases a with
  | nil => cases hne rfl
  | cons x xs => rfl

lemma forward_sample_getD_ge (h : function α) (av yv : List α) (n i : ℕ)
    (hi : yv.length ≤ i) : (forward_sample h av yv n).getD i 0 = 0 :=
  getD_range_map_ge _ _ _ _ hi

/-- Claim C1: `forward_activation` on an empty pre-activation batch returns the
output batch unmodified; on a non-empty batch of shared per-sample width `w`
(and equal batch lengths) it overwrites `y[sample][i] = h.f(a[sample], i)` for
every sample position and every output index `i < w`. -/
theorem forward_activation_spec (h : function α) (y a : List (List α)) (w : ℕ)
    (hlen : y.length = a.length)
    (hw : ∀ s, s < a.length → (a.getD s []).length = w ∧ (y.getD s []).length = w) :
    (a = [] → forward_activation y a h = y)
    ∧ (a ≠ [] →
        (forward_activation y a h).length = y.length
        ∧ ∀ s, s < y.length → ∀ i, i < w →
            ((forward_activation y a h).getD s []).getD i 0 = h.f (a.getD s []) i) := by
  constructor
  · intro ha
    subst ha
    simp [forward_activation]
  · intro hne
    refine ⟨forward_activation_length y a h, ?_⟩
    intro s hs i hi
    have hsa : s < a.length := hlen ▸ hs
    obtain ⟨haw, hyw⟩ := hw s hsa
    have hhead : (a.headD []).length = w := by
      rw [headD_eq_getD_zero a hne]
      exact (hw 0 (List.length_pos.mpr hne)).1
    rw [forward_activation_getD y a h s hne hs,
      forward_sample_getD h _ _ _ i (by omega), if_pos (by omega)]

/-- Witness for C1 at a concrete input: a singleton batch of width one with
the identity activation. -/
theorem forward_activation_spec_witness :
    (([[(0 : ℚ)]] : List (List ℚ)).length = ([[(3 : ℚ)]] : List (List ℚ)).length
     ∧ (∀ s, s < ([[(3 : ℚ)]] : List (List ℚ)).length →
          (([[(3 : ℚ)]] : List (List ℚ)).getD s []).length = 1
          ∧ (([[(0 : ℚ)]] : List (List ℚ)).getD s []).length = 1))
    ∧ ((([[(3 : ℚ)]] : List (List ℚ)) = [] →
          forward_activation [[(0 : ℚ)]] [[(3 : ℚ)]] identity = [[(0 : ℚ)]])
        ∧ (([[(3 : ℚ)]] : List (List ℚ)) ≠ [] →
            (forward_activation [[(0 : ℚ)]] [[(3 : ℚ)]] identity).length
              = ([[(0 : ℚ)]] : List (List ℚ)).length
            ∧ ∀ s, s < ([[(0 : ℚ)]] : List (List ℚ)).length → ∀ i, i < 1 →
                ((forward_activation [[(0 : ℚ)]] [[(3 : ℚ)]] identity).getD s []).getD i 0
                  = identity.f (([[(3 : ℚ)]] : List (List ℚ)).getD s []) i)) :=
  ⟨⟨rfl, fun s hs => by
      obtain rfl : s = 0 := Nat.lt_one_iff.mp (by simpa using hs)
      exact ⟨rfl, rfl⟩⟩,
    forward_activation_spec identity [[(0 : ℚ)]] [[(3 : ℚ)]] 1 rfl
      (fun s hs => by
        obtain rfl : s = 0 := Nat.lt_one_iff.mp (by simpa using hs)
        exact ⟨rfl, rfl⟩)⟩

/-- Claim C10: on a non-empty pre-activation batch, `forward_activation`
writes only within the first `y.length` samples and the first `a[0].length`
entries of each sample; entries at or beyond `a[0].length` keep their prior
value. -/
theorem forward_activation_frame (h : function α) (y a : List (List α))
    (hne : a ≠ []) :
    (forward_activation y a h).length = y.length
    ∧ ∀ s, s < y.length →
        ((forward_activation y a h).getD s []).length = (y.getD s []).length
        ∧ ∀ i, (a.headD []).length ≤ i →
            ((forward_activation y a h).getD s []).getD i 0 = (y.getD s []).getD i 0 := by
  refine ⟨forward_activation_length y a h, ?_⟩
  intro s hs
  rw [forward_activation_getD y a h s hne hs]
  refine ⟨forward_sample_length _ _ _ _, ?_⟩
  intro i hwi
  by_cases hi : i < (y.getD s []).length
  · rw [forward_sample_getD _ _ _ _ _ hi, if_neg (by omega)]
  · rw [forward_sample_getD_ge _ _ _ _ _ (by omega),
      List.getD_eq_default _ _ (by omega)]

/-- Witness for C10 at a concrete input: a batch of one sample whose output
slot is wider than the pre-activation width. -/
theorem forward_activation_frame_witness :
    (([[(3 : ℚ)]] : List (List ℚ)) ≠ []
    ∧ (forward_activation [[(0 : ℚ), 7]] [[(3 : ℚ)]] identity).length
        = ([[(0 : ℚ), 7]] : List (List ℚ)).length
    ∧ ∀ s, s < ([[(0 : ℚ), 7]] : List (List ℚ)).length →
        ((forward_activation [[(0 : ℚ), 7]] [[(3 : ℚ)]] identity).getD s []).length
          = (([[(0 : ℚ), 7]] : List (List ℚ)).getD s []).length
        ∧ ∀ i, (([[(3 : ℚ)]] : List (List ℚ)).headD []).length ≤ i →
            ((forward_activation [[(0 : ℚ), 7]] [[(3 : ℚ)]] identity).getD s []).getD i 0
              = (([[(0 : ℚ), 7]] : List (List ℚ)).getD s []).getD i 0) :=
  ⟨by simp, forward_activation_frame identity [[(0 : ℚ), 7]] [[(3 : ℚ)]] (by simp)⟩

/-- Claim C2: with a one-hot activation and batches of equal batch length and
equal per-sample width, `backward_activation` computes the elementwise chain
rule `curr_delta[s][c] = prev_delta[s][c] * h.df(this_out[s][c])`; in
particular sigmoid on one sample of width two with `this_out = [0.5, 0.5]`
and `prev_delta = [1, 2]` yields `curr_delta = [0.25, 0.5]`. -/
theorem backward_activation_one_hot_spec (h : function α)
    (pd out cd : List (List α)) (w : ℕ) (hone : h.one_hot = true)
    (hlen₁ : pd.length = cd.length) (hlen₂ : out.length = cd.length)
    (hw : ∀ s, s < cd.length →
      (pd.getD s []).length = w ∧ (out.getD s []).length = w
        ∧ (cd.getD s []).length = w) :
    ((backward_activation pd out cd h).length = cd.length
     ∧ ∀ s, s < cd.length → ∀ c, c < w →
        ((backward_activation pd out cd h).getD s []).getD c 0
          = (pd.getD s []).getD c 0 * h.df ((out.getD s []).getD c 0))
    ∧ backward_activation (α := ℚ) [[1, 2]] [[0.5, 0.5]] [[0, 0]] (sigmoid id)
        = [[0.25, 0.5]] := by
  constructor
  · refine ⟨backward_activation_length pd out cd h, ?_⟩
    intro s hs c hc
    obtain ⟨hpw, how, hcw⟩ := hw s hs
    rw [backward_activation_getD _ _ _ _ _ hs, if_pos (by omega),
      backward_sample_getD_one_hot _ _ _ _ _ hone (by omega), if_pos (by omega)]
  · norm_num [backward_activation, backward_sample, sigmoid, List.range_succ]

/-- Witness for C2 at a concrete input: the sigmoid batch of the claim. -/
theorem backward_activation_one_hot_spec_witness :
    ((sigmoid (α := ℚ) id).one_hot = true
     ∧ ([[(1 : ℚ), 2]] : List (List ℚ)).length = ([[(0 : ℚ), 0]] : List (List ℚ)).length
     ∧ (∀ s, s < ([[(0 : ℚ), 0]] : List (List ℚ)).length →
          (([[(1 : ℚ), 2]] : List (List ℚ)).getD s []).length = 2
          ∧ (([[(0.5 : ℚ), 0.5]] : List (List ℚ)).getD s []).length = 2
          ∧ (([[(0 : ℚ), 0]] : List (List ℚ)).getD s []).length = 2))
    ∧ (((backward_activation [[(1 : ℚ), 2]] [[0.5, 0.5]] [[0, 0]] (sigmoid id)).length
          = ([[(0 : ℚ), 0]] : List (List ℚ)).length
        ∧ ∀ s, s < ([[(0 : ℚ), 0]] : List (List ℚ)).length → ∀ c, c < 2 →
            ((backward_activation [[(1 : ℚ), 2]] [[0.5, 0.5]] [[0, 0]]
                (sigmoid id)).getD s []).getD c 0
              = (([[(1 : ℚ), 2]] : List (List ℚ)).getD s []).getD c 0
                  * (sigmoid (α := ℚ) id).df
                      ((([[(0.5 : ℚ), 0.5]] : List (List ℚ)).getD s []).getD c 0))
        ∧ backward_activation (α := ℚ) [[1, 2]] [[0.5, 0.5]] [[0, 0]] (sigmoid id)
            = [[0.25, 0.5]]) :=
  ⟨⟨rfl, rfl, fun s hs => by
      obtain rfl : s = 0 := Nat.lt_one_iff.mp (by simpa using hs)
      exact ⟨rfl, rfl, rfl⟩⟩,
    backward_activation_one_hot_spec (sigmoid id) [[(1 : ℚ), 2]] [[0.5, 0.5]]
      [[0, 0]] 2 rfl rfl rfl
      (fun s hs => by
        obtain rfl : s = 0 := Nat.lt_one_iff.mp (by simpa using hs)
        exact ⟨rfl, rfl, rfl⟩)⟩

/-- Claim C3: with a dense (non-one-hot) activation and batches of equal batch
length and equal per-sample width, `backward_activation` sets
`curr_delta[s][c]` to the dot product of `prev_delta[s]` with the dense
Jacobian row `h.df_vec(this_out[s], c)`, summing over all output indices. -/
theorem backward_activation_dense_spec (h : function α)
    (pd out cd : List (List α)) (w : ℕ) (hone : h.one_hot = false)
    (hlen₁ : pd.length = cd.length) (hlen₂ : out.length = cd.length)
    (hw : ∀ s, s < cd.length →
      (pd.getD s []).length = w ∧ (out.getD s []).length = w
        ∧ (cd.getD s []).length = w) :
    (backward_activation pd out cd h).length = cd.length
    ∧ ∀ s, s < cd.length → ∀ c, c < w →
        ((backward_activation pd out cd h).getD s []).getD c 0
          = ∑ k ∈ Finset.range w,
              (pd.getD s []).getD k 0 * (h.df_vec (out.getD s []) c).getD k 0 := by
  refine ⟨backward_activation_length pd out cd h, ?_⟩
  intro s hs c hc
  obtain ⟨hpw, how, hcw⟩ := hw s hs
  rw [backward_activation_getD _ _ _ _ _ hs, if_pos (by omega),
    backward_sample_getD_dense _ _ _ _ _ hone (by omega), if_pos (by omega),
    dot, sum_range_map, hpw]

/-- Witness for C3 at a concrete input: softmax on one sample of width two. -/
theorem backward_activation_dense_spec_witness :
    ((softmax (α := ℚ) id).one_hot = false
     ∧ ([[(1 : ℚ), 2]] : List (List ℚ)).length = ([[(0 : ℚ), 0]] : List (List ℚ)).length
     ∧ (∀ s, s < ([[(0 : ℚ), 0]] : List (List ℚ)).length →
          (([[(1 : ℚ), 2]] : List (List ℚ)).getD s []).length = 2
          ∧ (([[(0.5 : ℚ), 0.5]] : List (List ℚ)).getD s []).length = 2
          ∧ (([[(0 : ℚ), 0]] : List (List ℚ)).getD s []).length = 2))
    ∧ ((backward_activation [[(1 : ℚ), 2]] [[0.5, 0.5]] [[0, 0]]
          (softmax id)).length = ([[(0 : ℚ), 0]] : List (List ℚ)).length
        ∧ ∀ s, s < ([[(0 : ℚ), 0]] : List (List ℚ)).length → ∀ c, c < 2 →
            ((backward_activation [[(1 : ℚ), 2]] [[0.5, 0.5]] [[0, 0]]
                (softmax id)).getD s []).getD c 0
              = ∑ k ∈ Finset.range 2,
                  (([[(1 : ℚ), 2]] : List (List ℚ)).getD s []).getD k 0
                    * ((softmax (α := ℚ) id).df_vec
                        (([[(0.5 : ℚ), 0.5]] : List (List ℚ)).getD s []) c).getD k 0) :=
  ⟨⟨rfl, rfl, fun s hs => by
      obtain rfl : s = 0 := Nat.lt_one_iff.mp (by simpa using hs)
      exact ⟨rfl, rfl, rfl⟩⟩,
    backward_activation_dense_spec (softmax id) [[(1 : ℚ), 2]] [[0.5, 0.5]]
      [[0, 0]] 2 rfl rfl rfl
      (fun s hs => by
        obtain rfl : s = 0 := Nat.lt_one_iff.mp (by simpa using hs)
        exact ⟨rfl, rfl, rfl⟩)⟩

/-- Claim C4: the softmax dense Jacobian row `df(y, index)` has length
`y.length`, holds `y[index]*(1 - y[index])` on the diagonal and
`-y[k]*y[index]` off it; at `y = [0.2, 0.3, 0.5]`, `df(y, 1)` equals
`[-0.06, 0.21, -0.15]`. -/
theorem softmax_df_vec_spec (e : α → α) (y : List α) (index : ℕ)
    (hidx : index < y.length) :
    ((softmax e).df_vec y index).length = y.length
    ∧ (∀ k, k < y.length → ((softmax e).df_vec y index).getD k 0 =
        if k = index then y.getD index 0 * (1 - y.getD index 0)
        else -(y.getD k 0 * y.getD index 0))
    ∧ (softmax (α := ℚ) id).df_vec [0.2, 0.3, 0.5] 1 = [-0.06, 0.21, -0.15] := by
  refine ⟨by simp [softmax, softmax_df_vec], ?_, ?_⟩
  · intro k hk
    rw [show (softmax e).df_vec = softmax_df_vec from rfl, softmax_df_vec,
      getD_range_map _ _ _ _ hk]
    split_ifs <;> ring
  · norm_num [softmax, softmax_df_vec, List.range_succ]

/-- Witness for C4 at the concrete row of the claim. -/
theorem softmax_df_vec_spec_witness :
    (1 < ([(0.2 : ℚ), 0.3, 0.5] : List ℚ).length)
    ∧ (((softmax (α := ℚ) id).df_vec [0.2, 0.3, 0.5] 1).length
        = ([(0.2 : ℚ), 0.3, 0.5] : List ℚ).length
      ∧ (∀ k, k < ([(0.2 : ℚ), 0.3, 0.5] : List ℚ).length →
          ((softmax (α := ℚ) id).df_vec [0.2, 0.3, 0.5] 1).getD k 0 =
            if k = 1 then
              ([(0.2 : ℚ), 0.3, 0.5] : List ℚ).getD 1 0
                * (1 - ([(0.2 : ℚ), 0.3, 0.5] : List ℚ).getD 1 0)
            else -(([(0.2 : ℚ), 0.3, 0.5] : List ℚ).getD k 0
                * ([(0.2 : ℚ), 0.3, 0.5] : List ℚ).getD 1 0))
      ∧ (softmax (α := ℚ) id).df_vec [0.2, 0.3, 0.5] 1 = [-0.06, 0.21, -0.15]) :=
  ⟨by norm_num, softmax_df_vec_spec id [0.2, 0.3, 0.5] 1 (by norm_num)⟩

/-- Claim C6: `one_hot()` is `true` for the identity, sigmoid,
rectified-linear, leaky-rectified-linear, exponential-linear,
hyperbolic-tangent and rescaled-tanh variants, and `false` for softmax. -/
theorem one_hot_spec (e t : α → α) :
    (identity (α := α)).one_hot = true
    ∧ (sigmoid e).one_hot = true
    ∧ (relu (α := α)).one_hot = true
    ∧ (rectified_linear (α := α)).one_hot = true
    ∧ (leaky_relu (α := α)).one_hot = true
    ∧ (elu e).one_hot = true
    ∧ (tan_h t).one_hot = true
    ∧ (tan_hp1m2 e).one_hot = true
    ∧ (softmax e).one_hot = false :=
  ⟨rfl, rfl, rfl, rfl, rfl, rfl, rfl, rfl, rfl⟩

/-- Claim C7: the exponential-linear unit computes `f(v, i) = v[i]` when
`v[i] ≥ 0` and `e^(v[i]) - 1` when `v[i] < 0`, `df(y) = 1` when `y > 0` and
`1 + y` otherwise, and `scale() = (0.1, 0.9)`. -/
theorem elu_spec (v : List ℝ) (i : ℕ) (y : ℝ) (hi : i < v.length) :
    (0 ≤ v.getD i 0 → (elu Real.exp).f v i = v.getD i 0)
    ∧ (v.getD i 0 < 0 → (elu Real.exp).f v i = Real.exp (v.getD i 0) - 1)
    ∧ (0 < y → (elu Real.exp).df y = 1)
    ∧ (y ≤ 0 → (elu Real.exp).df y = 1 + y)
    ∧ (elu Real.exp).scale = (0.1, 0.9) := by
  refine ⟨?_, ?_, ?_, ?_, rfl⟩
  · intro h0
    show (if v.getD i 0 < 0 then Real.exp (v.getD i 0) - 1 else v.getD i 0)
      = v.getD i 0
    rw [if_neg (not_lt.mpr h0)]
  · intro h0
    show (if v.getD i 0 < 0 then Real.exp (v.getD i 0) - 1 else v.getD i 0)
      = Real.exp (v.getD i 0) - 1
    rw [if_pos h0]
  · intro h0
    show (if (0 : ℝ) < y then 1 else 1 + y) = 1
    rw [if_pos h0]
  · intro h0
    show (if (0 : ℝ) < y then 1 else 1 + y) = 1 + y
    rw [if_neg (not_lt.mpr h0)]

/-- Witness for C7 at a concrete input: `v = [1]`, `i = 0`, `y = 1`. -/
theorem elu_spec_witness :
    (0 < ([(1 : ℝ)] : List ℝ).length)
    ∧ ((0 ≤ ([(1 : ℝ)] : List ℝ).getD 0 0 →
          (elu Real.exp).f [(1 : ℝ)] 0 = ([(1 : ℝ)] : List ℝ).getD 0 0)
      ∧ (([(1 : ℝ)] : List ℝ).getD 0 0 < 0 →
          (elu Real.exp).f [(1 : ℝ)] 0
            = Real.exp (([(1 : ℝ)] : List ℝ).getD 0 0) - 1)
      ∧ ((0 : ℝ) < 1 → (elu Real.exp).df 1 = 1)
      ∧ ((1 : ℝ) ≤ 0 → (elu Real.exp).df 1 = 1 + 1)
      ∧ (elu Real.exp).scale = (0.1, 0.9)) :=
  ⟨by norm_num, elu_spec [(1 : ℝ)] 0 1 (by norm_num)⟩

lemma dot_df_default (df : α → α) (pd y : List α) (c : ℕ)
    (hlen : pd.length = y.length) (hc : c < pd.length) :
    dot pd (df_default df y c) pd.length = pd.getD c 0 * df (y.getD c 0) := by
  rw [dot, sum_range_map]
  have hcongr : ∀ k ∈ Finset.range pd.length,
      pd.getD k 0 * (df_default df y c).getD k 0
        = if k = c then pd.getD c 0 * df (y.getD c 0) else 0 := by
    intro k hk
    have hky : k < y.length := hlen ▸ Finset.mem_range.mp hk
    rw [df_default, getD_range_map _ _ _ _ hky]
    by_cases hkc : k = c
    · subst hkc
      simp
    · simp [hkc]
  rw [Finset.sum_congr rfl hcongr, Finset.sum_ite_eq' (Finset.range pd.length) c,
    if_pos (Finset.mem_range.mpr hc)]

lemma backward_sample_one_hot_eq_dense (h : function α)
    (hdf : h.df_vec = df_default h.df) (pv ov cv : List α)
    (hlen : pv.length = ov.length) :
    backward_sample { h with one_hot := true } pv ov cv
      = backward_sample { h with one_hot := false } pv ov cv := by
  apply List.ext_getElem
  · rw [backward_sample_length, backward_sample_length]
  · intro c h1 h2
    have hc : c < cv.length := by
      rwa [backward_sample_length] at h1
    rw [← List.getD_eq_getElem _ 0 h1, ← List.getD_eq_getElem _ 0 h2,
      backward_sample_getD_one_hot _ _ _ _ _ rfl hc,
      backward_sample_getD_dense _ _ _ _ _ rfl hc]
    by_cases hcp : c < pv.length
    · rw [if_pos hcp, if_pos hcp]
      show pv.getD c 0 * h.df (ov.getD c 0) = dot pv (h.df_vec ov c) pv.length
      rw [hdf, dot_df_default h.df pv ov c hlen hcp]
    · rw [if_neg hcp, if_neg hcp]

/-- Claim C9: for an activation using the default (one-hot) Jacobian-row
implementation, the dot product of `prev_delta` with the default row
`df(y, c)` collapses to `prev_delta[c] * df(y[c])`, so the dense backward
path and the elementwise one-hot backward path of `backward_activation`
compute identical deltas. -/
theorem default_df_backward_equiv (h : function α)
    (hdf : h.df_vec = df_default h.df) :
    (∀ (pd y : List α) (c : ℕ), pd.length = y.length → c < pd.length →
        dot pd (df_default h.df y c) pd.length
          = pd.getD c 0 * h.df (y.getD c 0))
    ∧ (∀ (pd out cd : List (List α)),
        (∀ s, s < cd.length → (pd.getD s []).length = (out.getD s []).length) →
        backward_activation pd out cd { h with one_hot := true }
          = backward_activation pd out cd { h with one_hot := false }) := by
  constructor
  · intro pd y c hlen hc
    exact dot_df_default h.df pd y c hlen hc
  · intro pd out cd hw
    apply List.ext_getElem
    · rw [backward_activation_length, backward_activation_length]
    · intro t h1 h2
      have ht : t < cd.length := by
        rwa [backward_activation_length] at h1
      rw [← List.getD_eq_getElem _ [] h1, ← List.getD_eq_getElem _ [] h2,
        backward_activation_getD _ _ _ _ _ ht, backward_activation_getD _ _ _ _ _ ht]
      by_cases hto : t < out.length
      · rw [if_pos hto, if_pos hto,
          backward_sample_one_hot_eq_dense h hdf _ _ _ (hw t ht)]
      · rw [if_neg hto, if_neg hto]

/-- Witness for C9 with the sigmoid activation over `ℚ`. -/
theorem default_df_backward_equiv_witness :
    ((sigmoid (α := ℚ) id).df_vec = df_default (sigmoid (α := ℚ) id).df)
    ∧ ((∀ (pd y : List ℚ) (c : ℕ), pd.length = y.length → c < pd.length →
          dot pd (df_default (sigmoid (α := ℚ) id).df y c) pd.length
            = pd.getD c 0 * (sigmoid (α := ℚ) id).df (y.getD c 0))
      ∧ (∀ (pd out cd : List (List ℚ)),
          (∀ s, s < cd.length → (pd.getD s []).length = (out.getD s []).length) →
          backward_activation pd out cd { sigmoid (α := ℚ) id with one_hot := true }
            = backward_activation pd out cd
                { sigmoid (α := ℚ) id with one_hot := false })) :=
  ⟨rfl, default_df_backward_equiv (sigmoid id) rfl⟩

lemma softmax_f_eq (e : α → α) (v : List α) (i : ℕ) :
    (softmax e).f v i
      = e (v.getD i 0 - max_element v)
          / (v.map (fun x => e (x - max_element v))).sum := rfl

lemma foldl_max_map_add (c : α) :
    ∀ (xs : List α) (x : α),
      (xs.map (fun t => t + c)).foldl max (x + c) = xs.foldl max x + c := by
  intro xs
  induction xs with
  | nil => intro x; rfl
  | cons z zs ih =>
    intro x
    simp only [List.map_cons, List.foldl_cons]
    rw [max_add_add_right, ih]

lemma max_element_map_add (v : List α) (c : α) (hv : v ≠ []) :
    max_element (v.map (fun x => x + c)) = max_element v + c := by
  cases v with
  | nil => cases hv rfl
  | cons x xs =>
    simp only [List.map_cons, max_element]
    exact foldl_max_map_add c xs x

lemma getD_map_add (v : List α) (c : α) (i : ℕ) (hi : i < v.length) :
    (v.map (fun x => x + c)).getD i 0 = v.getD i 0 + c := by
  rw [List.getD_eq_getElem _ _ (by simpa using hi), List.getElem_map,
    List.getD_eq_getElem _ _ hi]

lemma map_sum_getD [AddCommMonoid β] (g : α → β) (v : List α) :
    (v.map g).sum = ∑ i ∈ Finset.range v.length, g (v.getD i 0) := by
  induction v with
  | nil => simp
  | cons x xs ih =>
    rw [List.map_cons, List.sum_cons, List.length_cons, Finset.sum_range_succ']
    simp only [List.getD_cons_succ, List.getD_cons_zero]
    rw [ih, add_comm]

lemma softmax_denom_pos (v : List ℝ) (hv : v ≠ []) :
    0 < (v.map (fun x => Real.exp (x - max_element v))).sum := by
  apply List.sum_pos
  · intro x hx
    obtain ⟨z, _, rfl⟩ := List.mem_map.mp hx
    exact Real.exp_pos _
  · simpa using hv

/-- Claim C5: for every non-empty `v`, the softmax values sum to `1`, each
value lies in `(0, 1]`, and shifting every element of `v` by the same
constant leaves every value unchanged. -/
theorem softmax_f_spec (v : List ℝ) (hv : v ≠ []) :
    (∑ i ∈ Finset.range v.length, (softmax Real.exp).f v i) = 1
    ∧ (∀ i, i < v.length → (softmax Real.exp).f v i ∈ Set.Ioc (0 : ℝ) 1)
    ∧ (∀ (c : ℝ) (i : ℕ), i < v.length →
        (softmax Real.exp).f (v.map (fun x => x + c)) i
          = (softmax Real.exp).f v i) := by
  have hD := softmax_denom_pos v hv
  refine ⟨?_, ?_, ?_⟩
  · simp only [softmax_f_eq]
    rw [← Finset.sum_div, ← map_sum_getD (fun x => Real.exp (x - max_element v)) v,
      div_self (ne_of_gt hD)]
  · intro i hi
    rw [softmax_f_eq]
    have hmem : Real.exp (v.getD i 0 - max_element v)
        ∈ v.map (fun x => Real.exp (x - max_element v)) := by
      apply List.mem_map_of_mem
      rw [List.getD_eq_getElem _ _ hi]
      exact List.getElem_mem hi
    have hle : Real.exp (v.getD i 0 - max_element v)
        ≤ (v.map (fun x => Real.exp (x - max_element v))).sum :=
      List.single_le_sum
        (fun x hx => by
          obtain ⟨z, _, rfl⟩ := List.mem_map.mp hx
          exact (Real.exp_pos _).le)
        _ hmem
    exact ⟨div_pos (Real.exp_pos _) hD, (div_le_one hD).mpr hle⟩
  · intro c i hi
    have hshift : ∀ x : ℝ, x + c - (max_element v + c) = x - max_element v := by
      intro x
      ring
    rw [softmax_f_eq, softmax_f_eq, max_element_map_add v c hv,
      getD_map_add v c i hi, hshift, List.map_map]
    have hfun : ((fun x => Real.exp (x - (max_element v + c))) ∘ fun x => x + c)
        = fun x => Real.exp (x - max_element v) := by
      funext x
      simp only [Function.comp_apply]
      rw [hshift]
    rw [hfun]

/-- Witness for C5 at a concrete input: the two-element vector `[0, 1]`. -/
theorem softmax_f_spec_witness :
    (([(0 : ℝ), 1] : List ℝ) ≠ [])
    ∧ ((∑ i ∈ Finset.range ([(0 : ℝ), 1] : List ℝ).length,
          (softmax Real.exp).f [(0 : ℝ), 1] i) = 1
      ∧ (∀ i, i < ([(0 : ℝ), 1] : List ℝ).length →
          (softmax Real.exp).f [(0 : ℝ), 1] i ∈ Set.Ioc (0 : ℝ) 1)
      ∧ (∀ (c : ℝ) (i : ℕ), i < ([(0 : ℝ), 1] : List ℝ).length →
          (softmax Real.exp).f (([(0 : ℝ), 1] : List ℝ).map (fun x => x + c)) i
            = (softmax Real.exp).f [(0 : ℝ), 1] i)) :=
  ⟨by simp, softmax_f_spec [(0 : ℝ), 1] (by simp)⟩

/-- Counterexample to C8 as stated: two pre-activation batches agreeing at
sample position 1 (with the same output batch, also agreeing at position 1)
produce different forward results at position 1, because the write width is
taken from sample 0 of the pre-activation batch. -/
theorem forward_sample_dependence_cex :
    ([[(1 : ℚ)], [5, 6]] : List (List ℚ)).getD 1 []
        = ([[(1 : ℚ), 1], [5, 6]] : List (List ℚ)).getD 1 []
    ∧ (forward_activation [[(0 : ℚ), 0], [7, 7]] [[(1 : ℚ)], [5, 6]] identity).getD 1 []
        ≠ (forward_activation [[(0 : ℚ), 0], [7, 7]] [[(1 : ℚ), 1], [5, 6]] identity).getD 1 [] := by
  refine ⟨rfl, ?_⟩
  norm_num [forward_activation, forward_sample, identity, List.range_succ]

/-- Claim C8 (amended): provided each pre-activation batch has a uniform
per-sample width (the batch invariant), the forward result at sample `s`
depends only on the data at sample `s`; the backward result at sample `s`
depends only on the data at sample `s` with no width hypothesis; and both
passes are unchanged under any per-sample execution schedule, including the
fully sequential one. -/
theorem sample_independence (h : function α) :
    (∀ (y₁ a₁ y₂ a₂ : List (List α)) (s w : ℕ),
        (∀ t, t < a₁.length → (a₁.getD t []).length = w) →
        (∀ t, t < a₂.length → (a₂.getD t []).length = w) →
        s < y₁.length → s < y₂.length → s < a₁.length → s < a₂.length →
        a₁.getD s [] = a₂.getD s [] → y₁.getD s [] = y₂.getD s [] →
        (forward_activation y₁ a₁ h).getD s []
          = (forward_activation y₂ a₂ h).getD s [])
    ∧ (∀ (pd₁ o₁ cd₁ pd₂ o₂ cd₂ : List (List α)) (s : ℕ),
        s < cd₁.length → s < cd₂.length → s < o₁.length → s < o₂.length →
        pd₁.getD s [] = pd₂.getD s [] → o₁.getD s [] = o₂.getD s [] →
        cd₁.getD s [] = cd₂.getD s [] →
        (backward_activation pd₁ o₁ cd₁ h).getD s []
          = (backward_activation pd₂ o₂ cd₂ h).getD s [])
    ∧ (∀ (order : List ℕ) (y a : List (List α)),
        order.Perm (List.range y.length) →
        forward_activation_sched order y a h = forward_activation y a h)
    ∧ (∀ (order : List ℕ) (pd out cd : List (List α)),
        order.Perm (List.range out.length) →
        backward_activation_sched order pd out cd h
          = backward_activation pd out cd h) := by
  refine ⟨?_, ?_, ?_, ?_⟩
  · intro y₁ a₁ y₂ a₂ s w hw₁ hw₂ hs₁ hs₂ hsa₁ hsa₂ ha hy
    have hne₁ : a₁ ≠ [] := List.ne_nil_of_length_pos (by omega)
    have hne₂ : a₂ ≠ [] := List.ne_nil_of_length_pos (by omega)
    have hh₁ : (a₁.headD []).length = w := by
      rw [headD_eq_getD_zero a₁ hne₁]
      exact hw₁ 0 (by omega)
    have hh₂ : (a₂.headD []).length = w := by
      rw [headD_eq_getD_zero a₂ hne₂]
      exact hw₂ 0 (by omega)
    rw [forward_activation_getD _ _ _ _ hne₁ hs₁,
      forward_activation_getD _ _ _ _ hne₂ hs₂, ha, hy, hh₁, hh₂]
  · intro pd₁ o₁ cd₁ pd₂ o₂ cd₂ s hc₁ hc₂ ho₁ ho₂ hp ho hc
    rw [backward_activation_getD _ _ _ _ _ hc₁, backward_activation_getD _ _ _ _ _ hc₂,
      if_pos ho₁, if_pos ho₂, hp, ho, hc]
  · intro order y a hperm
    exact forward_activation_sched_eq order y a h hperm
  · intro order pd out cd hperm
    exact backward_activation_sched_eq order pd out cd h hperm

/-- Witness for the amended C8: concrete batches of uniform width one, and a
reversed two-sample schedule. -/
theorem sample_independence_witness :
    ((∀ t, t < ([[(2 : ℚ)], [3]] : List (List ℚ)).length →
        (([[(2 : ℚ)], [3]] : List (List ℚ)).getD t []).length = 1)
      ∧ List.Perm [1, 0] (List.range ([[(0 : ℚ)], [1]] : List (List ℚ)).length))
    ∧ ((forward_activation [[(0 : ℚ)], [1]] [[2], [3]] identity).getD 1 []
          = (forward_activation [[(9 : ℚ)], [1]] [[2], [3]] identity).getD 1 []
      ∧ (backward_activation [[(1 : ℚ)], [2]] [[3], [4]] [[0], [0]] identity).getD 1 []
          = (backward_activation [[(5 : ℚ)], [2]] [[6], [4]] [[7], [0]] identity).getD 1 []
      ∧ forward_activation_sched [1, 0] [[(0 : ℚ)], [1]] [[2], [3]] identity
          = forward_activation [[(0 : ℚ)], [1]] [[2], [3]] identity
      ∧ backward_activation_sched [1, 0] [[(1 : ℚ)], [2]] [[3], [4]] [[0], [0]] identity
          = backward_activation [[(1 : ℚ)], [2]] [[3], [4]] [[0], [0]] identity) :=
  ⟨⟨by decide, by decide⟩,
    (sample_independence identity).1 [[(0 : ℚ)], [1]] [[2], [3]] [[(9 : ℚ)], [1]]
      [[2], [3]] 1 1 (by decide) (by decide) (by decide) (by decide) (by decide)
      (by decide) rfl rfl,
    (sample_independence identity).2.1 [[(1 : ℚ)], [2]] [[3], [4]] [[0], [0]]
      [[(5 : ℚ)], [2]] [[6], [4]] [[7], [0]] 1 (by decide) (by decide) (by decide)
      (by decide) rfl rfl rfl,
    (sample_independence identity).2.2.1 [1, 0] [[(0 : ℚ)], [1]] [[2], [3]]
      (by decide),
    (sample_independence identity).2.2.2 [1, 0] [[(1 : ℚ)], [2]] [[3], [4]]
      [[0], [0]] (by decide)⟩

end activation
end tiny_dnn
